import Mathlib

/-!
Verification of the micro:bit Firmata firmware slice.

The repository's visible source is `src/firmware/main.cpp`: the driving loop
that configures the serial transport (baud 57600, rx/tx buffers of 249 bytes),
calls `initFirmata()`, and then forever alternates `stepFirmata()` with a
busy-wait on `uBit.serial.txBufferedSize() > 0`.  The protocol engine itself
(`initFirmata` / `stepFirmata` and the components behind them: frame parser,
pin model, sampling scheduler, report encoder) is declared in `mbFirmata.h`
but its implementation is not part of this slice; those components are
modelled here from the specification and each such definition says so in its
doc comment.
-/

namespace Firmata

/-! ## Pin model (spec-modelled) -/

/-- Modelled from the spec: the pin capability / mode alphabet
{digital-in, digital-out, analog-in, analog-out, pwm} (§3 Data Model).
The engine implementation holding this enum is not under src/. -/
inductive PinMode where
  | digitalIn
  | digitalOut
  | analogIn
  | analogOut
  | pwm
  deriving DecidableEq, Repr

/-- Modelled from the spec: one pin record — capability set, single active
mode, reporting-enabled flag, last-known value (§3 Data Model). -/
structure Pin where
  capabilities : List PinMode
  mode : PinMode
  reporting : Bool
  value : Nat
  deriving DecidableEq, Repr

/-- Modelled from the spec: the configuration error taxonomy of §4.2/§7. -/
inductive ConfigError where
  | UnsupportedMode
  | OutOfRange
  | WrongMode
  deriving DecidableEq, Repr

/-- Modelled from the spec: the fixed-size pin table created at engine
initialization (§3). -/
structure PinModel where
  pins : List Pin
  deriving DecidableEq, Repr

/-- Modelled from the spec: `configure(pinIndex, requestedMode)` (§4.2) —
`OutOfRange` when the index exceeds the board's pin count, `UnsupportedMode`
when the requested mode is not in the pin's capability set; on success the
pin's active mode switches.  The state is returned alongside the optional
error so that the failed-command-is-a-no-op contract is visible. -/
def configure (m : PinModel) (i : Nat) (md : PinMode) : PinModel × Option ConfigError :=
  match m.pins[i]? with
  | none => (m, some ConfigError.OutOfRange)
  | some p =>
    if md ∈ p.capabilities then
      (⟨m.pins.set i { p with mode := md }⟩, none)
    else
      (m, some ConfigError.UnsupportedMode)

/-- Modelled from the spec: output-capable modes, for `setValue`'s
`WrongMode` check (§4.2). -/
def isOutputMode : PinMode → Bool
  | PinMode.digitalOut => true
  | PinMode.analogOut => true
  | PinMode.pwm => true
  | _ => false

/-- Modelled from the spec: input modes sampled by the scheduler (§4.3). -/
def isInputMode : PinMode → Bool
  | PinMode.digitalIn => true
  | PinMode.analogIn => true
  | _ => false

/-- Modelled from the spec: `setValue(pinIndex, value)` (§4.2) — fails with
`WrongMode` when the pin is not in an output-capable mode. -/
def setValue (m : PinModel) (i : Nat) (v : Nat) : PinModel × Option ConfigError :=
  match m.pins[i]? with
  | none => (m, some ConfigError.OutOfRange)
  | some p =>
    if isOutputMode p.mode then
      (⟨m.pins.set i { p with value := v }⟩, none)
    else
      (m, some ConfigError.WrongMode)

/-- Modelled from the spec: `setReporting(pinIndex, enabled)` (§4.2). -/
def setReporting (m : PinModel) (i : Nat) (en : Bool) : PinModel :=
  match m.pins[i]? with
  | none => m
  | some p => ⟨m.pins.set i { p with reporting := en }⟩

/-! ## Report encoder (spec-modelled) -/

/-- Modelled from the spec: analog report encoding (§4.4/§6) — values are
truncated to the channel's 10-bit width, the payload is split into two
7-bit bytes with the most-significant-data-bearing byte last, after an
opcode byte with the high bit set. -/
def encodeAnalog (ch : Nat) (v : Nat) : List Nat :=
  [0xE0 + ch % 16, (v % 1024) % 128, (v % 1024) / 128]

/-- Modelled from the spec: digital port report encoding (§4.4/§6) — the
8-bit port value is truncated and split into two 7-bit payload bytes. -/
def encodeDigital (port : Nat) (v : Nat) : List Nat :=
  [0x90 + port % 16, (v % 256) % 128, (v % 256) / 128]

/-- Modelled from the spec: the reference host-side decoder — reassemble a
two-byte 7-bit payload, least-significant byte first (§6, §8 round-trip). -/
def decodeFrame (bytes : List Nat) : Option Nat :=
  match bytes with
  | [_, lo, hi] => some (lo + 128 * hi)
  | _ => none

/-! ## Frame parser (spec-modelled) -/

/-- Modelled from the spec: the per-opcode framing table (§4.1/§6).  Exact
opcode assignments are profile-specific; this fixes a representative
Firmata-style profile consistent with the spec's scenarios: `0x90..0x9F`
digital-port messages with two payload bytes, `0xC0..0xCF` / `0xD0..0xDF`
report toggles with one payload byte, `0xE0..0xEF` analog messages with two
payload bytes, `0xF4` set-pin-mode with two payload bytes, and `0xF0` the
variable-length (terminator-delimited) sysex opcode.  `none` means the byte
is not a recognized opcode; `some none` means variable length; `some (some n)`
means a fixed payload of `n` bytes. -/
def opcodeSpec (b : Nat) : Option (Option Nat) :=
  if 0x90 ≤ b ∧ b ≤ 0x9F then some (some 2)
  else if 0xC0 ≤ b ∧ b ≤ 0xCF then some (some 1)
  else if 0xD0 ≤ b ∧ b ≤ 0xDF then some (some 1)
  else if 0xE0 ≤ b ∧ b ≤ 0xEF then some (some 2)
  else if b = 0xF4 then some (some 2)
  else if b = 0xF0 then some none
  else none

/-- Modelled from the spec: the terminator opcode ending a variable-length
frame (§4.1/§6); in the Firmata family this is the sysex-end byte. -/
def terminatorByte : Nat := 0xF7

/-- Modelled from the spec: a complete protocol message — opcode plus
payload bytes (§3 Data Model). -/
structure Frame where
  opcode : Nat
  payload : List Nat
  deriving DecidableEq, Repr

/-- Modelled from the spec: the single live in-progress assembly state of
the frame parser (§3): current opcode (`none` = IDLE), accumulated payload
bytes, and expected payload length (`none` = terminator-delimited). -/
structure ParserState where
  opcode : Option Nat
  buf : List Nat
  expected : Option Nat
  deriving DecidableEq, Repr

/-- Modelled from the spec: the parser's IDLE state. -/
def initParser : ParserState := ⟨none, [], none⟩

/-- Modelled from the spec: handling one byte while IDLE (§4.1) — a
recognized opcode byte starts accumulation (dispatching immediately if its
fixed payload length is zero); any other byte is discarded. -/
def startByte (b : Nat) : ParserState × Option Frame :=
  match opcodeSpec b with
  | none => (initParser, none)
  | some (some n) =>
    if n = 0 then (initParser, some ⟨b, []⟩)
    else (⟨some b, [], some n⟩, none)
  | some none => (⟨some b, [], none⟩, none)

/-- Modelled from the spec: `feed(byte) -> Option<Frame>` (§4.1) — the
IDLE → ACCUMULATING → COMPLETE state machine.  A payload byte (high bit
clear) extends the current frame, dispatching when the fixed length is
reached or the terminator arrives; a command byte (high bit set) arriving
mid-frame is a malformed-frame condition (§7): the partial frame is
discarded and the byte is handled as in IDLE. -/
def feed (s : ParserState) (b : Nat) : ParserState × Option Frame :=
  match s.opcode with
  | none => startByte b
  | some op =>
    match s.expected with
    | some n =>
      if b < 0x80 then
        if n ≤ s.buf.length + 1 then (initParser, some ⟨op, s.buf ++ [b]⟩)
        else (⟨some op, s.buf ++ [b], some n⟩, none)
      else startByte b
    | none =>
      if b = terminatorByte then (initParser, some ⟨op, s.buf⟩)
      else if b < 0x80 then (⟨some op, s.buf ++ [b], none⟩, none)
      else startByte b

/-- Feeding a list of bytes one at a time, collecting dispatched frames. -/
def feedBytes : ParserState → List Nat → ParserState × List Frame
  | s, [] => (s, [])
  | s, b :: bs =>
    ((feedBytes (feed s b).1 bs).1, (feed s b).2.toList ++ (feedBytes (feed s b).1 bs).2)

/-- Feeding bytes chunk by chunk, as they might arrive fragmented across
arrival events. -/
def feedChunks : ParserState → List (List Nat) → ParserState × List Frame
  | s, [] => (s, [])
  | s, c :: cs =>
    ((feedChunks (feedBytes s c).1 cs).1, (feedBytes s c).2 ++ (feedChunks (feedBytes s c).1 cs).2)

/-- A dispatched frame is complete for its opcode: fixed-length opcodes have
exactly the declared payload length; terminator-delimited opcodes have no
length requirement; unknown opcodes are never dispatched. -/
def frameComplete (f : Frame) : Prop :=
  match opcodeSpec f.opcode with
  | some (some n) => f.payload.length = n
  | some none => True
  | none => False

/-! ## Sampling scheduler (spec-modelled) -/

/-- Modelled from the spec: the scheduler's read of one digital channel
through the pin model (§4.3) — `some value` exactly when the pin exists,
its reporting flag is set and its mode is the digital input mode. -/
def digReadOpt (m : PinModel) (i : Nat) : Option Nat :=
  match m.pins[i]? with
  | some p => if p.reporting && p.mode == PinMode.digitalIn then some p.value else none
  | none => none

/-- Modelled from the spec: the scheduler's read of one analog channel
through the pin model (§4.3). -/
def anaReadOpt (m : PinModel) (i : Nat) : Option Nat :=
  match m.pins[i]? with
  | some p => if p.reporting && p.mode == PinMode.analogIn then some p.value else none
  | none => none

/-- The digital entries of one tick, in ascending pin-index order. -/
def digitalEntries (m : PinModel) : List (Nat × Nat) :=
  (List.range m.pins.length).filterMap fun i => (digReadOpt m i).map fun v => (i, v)

/-- The analog entries of one tick, in ascending pin-index order. -/
def analogEntries (m : PinModel) : List (Nat × Nat) :=
  (List.range m.pins.length).filterMap fun i => (anaReadOpt m i).map fun v => (i, v)

/-- Modelled from the spec: `tick() -> sequence of (pinIndex, value)` (§4.3)
— one entry per pin whose reporting flag is set and whose mode is an input
mode, ascending pin index, digital ports before analog channels. -/
def tick (m : PinModel) : List (Nat × Nat) :=
  digitalEntries m ++ analogEntries m

/-- Whether pin `i` qualifies for a digital report in `m`. -/
def digQual (m : PinModel) (i : Nat) : Bool :=
  (digReadOpt m i).isSome

/-- Whether pin `i` qualifies for an analog report in `m`. -/
def anaQual (m : PinModel) (i : Nat) : Bool :=
  (anaReadOpt m i).isSome

/-! ## Protocol engine step (spec-modelled) -/

/-- Modelled from the spec: decoding a wire mode byte for the set-pin-mode
command (§4.2); the byte assignments follow the Firmata family. -/
def decodeMode (b : Nat) : PinMode :=
  if b = 0 then PinMode.digitalIn
  else if b = 1 then PinMode.digitalOut
  else if b = 2 then PinMode.analogIn
  else if b = 3 then PinMode.pwm
  else PinMode.analogOut

/-- Modelled from the spec: applying one dispatched command frame to the pin
model (§4.2/§7).  A failed command is a no-op; unrecognized frames (including
sysex bodies, whose commands this slice does not define) leave the model
unchanged. -/
def applyFrame (m : PinModel) (f : Frame) : PinModel :=
  if 0x90 ≤ f.opcode ∧ f.opcode ≤ 0x9F then
    match f.payload with
    | [lo, hi] => (setValue m (f.opcode - 0x90) (lo + 128 * hi)).1
    | _ => m
  else if 0xC0 ≤ f.opcode ∧ f.opcode ≤ 0xCF then
    match f.payload with
    | [en] => setReporting m (f.opcode - 0xC0) (en != 0)
    | _ => m
  else if 0xD0 ≤ f.opcode ∧ f.opcode ≤ 0xDF then
    match f.payload with
    | [en] => setReporting m (f.opcode - 0xD0) (en != 0)
    | _ => m
  else if 0xE0 ≤ f.opcode ∧ f.opcode ≤ 0xEF then
    match f.payload with
    | [lo, hi] => (setValue m (f.opcode - 0xE0) (lo + 128 * hi)).1
    | _ => m
  else if f.opcode = 0xF4 then
    match f.payload with
    | [pin, md] => (configure m pin (decodeMode md)).1
    | _ => m
  else m

/-- Modelled from the spec: the whole protocol-engine state — the parser's
single live assembly state and the pin table (§3). -/
structure FirmataState where
  parser : ParserState
  pinModel : PinModel
  deriving DecidableEq, Repr

/-- Encoding one scheduler entry as an outbound report frame's bytes: a
digital-input pin becomes a digital port report, otherwise an analog
report (§4.4). -/
def encodeEntry (m : PinModel) (e : Nat × Nat) : List Nat :=
  match m.pins[e.1]? with
  | some p => if p.mode == PinMode.digitalIn then encodeDigital e.1 e.2 else encodeAnalog e.1 e.2
  | none => encodeAnalog e.1 e.2

/-- Modelled from the spec: `stepFirmata()` — one engine step: parse all
available input bytes, apply the dispatched command frames to the pin model,
then emit all due reports (§2 data flow, glossary "Step"). -/
def stepFirmata (e : FirmataState) (input : List Nat) : FirmataState × List Nat :=
  let parsed := feedBytes e.parser input
  let pins := parsed.2.foldl applyFrame e.pinModel
  (⟨parsed.1, pins⟩, ((tick pins).map (encodeEntry pins)).flatten)

/-- Modelled from the spec: `initFirmata()` — the engine state after
initialization: parser IDLE, pin table from the board's fixed capability
table (all pins start non-reporting). -/
def initFirmataState : FirmataState :=
  ⟨initParser,
   ⟨List.replicate 19
     ⟨[PinMode.digitalIn, PinMode.digitalOut, PinMode.analogIn, PinMode.analogOut, PinMode.pwm],
      PinMode.digitalIn, false, 0⟩⟩⟩

/-! ## The driving loop (from src/firmware/main.cpp) -/

/-- The two control points of `main`'s infinite loop: about to call
`stepFirmata()`, or inside the drain busy-wait. -/
inductive Phase where
  | running
  | draining
  deriving DecidableEq, Repr

/-- The state of the driving loop of `main.cpp`: control point, engine
state, and the transport's outbound (tx) queue, whose occupancy
`txBufferedSize()` reports. -/
structure LoopState where
  phase : Phase
  engine : FirmataState
  tx : List Nat
  deriving DecidableEq, Repr

/-- `uBit.serial.txBufferedSize()`: the number of queued-but-undrained
outbound bytes. -/
def txBufferedSize (s : LoopState) : Nat := s.tx.length

/-- The transition relation of `main`'s `while (true)` loop
(src/firmware/main.cpp lines 38-49): from `running`, one `stepFirmata()`
call consumes the bytes that arrived since the last step and appends its
output to the tx queue, entering the drain wait; while `draining`, the
transport may drain a byte (`drainOne`) or the loop busy-polls
`txBufferedSize() > 0` with an empty body (`spinPoll`); only when the queue
is empty does control return to `running` (`exitWait`). -/
inductive LoopStep : LoopState → LoopState → Prop where
  | runStep (eng : FirmataState) (tx input : List Nat) :
      LoopStep ⟨Phase.running, eng, tx⟩
        ⟨Phase.draining, (stepFirmata eng input).1, tx ++ (stepFirmata eng input).2⟩
  | drainOne (eng : FirmataState) (b : Nat) (rest : List Nat) :
      LoopStep ⟨Phase.draining, eng, b :: rest⟩ ⟨Phase.draining, eng, rest⟩
  | spinPoll (eng : FirmataState) (tx : List Nat) (h : tx ≠ []) :
      LoopStep ⟨Phase.draining, eng, tx⟩ ⟨Phase.draining, eng, tx⟩
  | exitWait (eng : FirmataState) :
      LoopStep ⟨Phase.draining, eng, []⟩ ⟨Phase.running, eng, []⟩

/-! ## Configured constants (from src/firmware/main.cpp) -/

/-- `uBit.serial.setRxBufferSize(249)` (main.cpp line 33). -/
def rxBufferSizeCfg : Nat := 249

/-- `uBit.serial.setTxBufferSize(249)` (main.cpp line 34). -/
def txBufferSizeCfg : Nat := 249

/-- The worst case documented in main.cpp's comment: streaming 16 channels
of analog data. -/
def analogChannels : Nat := 16

/-- The worst case documented in main.cpp's comment: three digital ports. -/
def digitalPorts : Nat := 3

/-- Bytes per report frame: one opcode byte plus two 7-bit payload bytes. -/
def reportFrameBytes : Nat := 3

/-! ## Helper lemmas -/

/-- Every encoded report entry is exactly three bytes long. -/
theorem encodeEntry_length (m : PinModel) (e : Nat × Nat) : (encodeEntry m e).length = 3 := by
  unfold encodeEntry
  cases m.pins[e.1]? with
  | none => simp [encodeAnalog]
  | some p =>
    by_cases h : p.mode == PinMode.digitalIn <;> simp [h, encodeAnalog, encodeDigital]

/-- Flattening the encodings of a list of entries yields three bytes per
entry. -/
theorem flatten_encode_length (m : PinModel) (l : List (Nat × Nat)) :
    ((l.map (encodeEntry m)).flatten).length = 3 * l.length := by
  induction l with
  | nil => simp
  | cons e l ih =>
    simp [List.flatten_cons, encodeEntry_length, ih]
    omega

/-- `configure` never changes the number of pins. -/
theorem configure_length (m : PinModel) (i : Nat) (md : PinMode) :
    (configure m i md).1.pins.length = m.pins.length := by
  unfold configure
  cases m.pins[i]? with
  | none => rfl
  | some p => by_cases h : md ∈ p.capabilities <;> simp [h]

/-- `setValue` never changes the number of pins. -/
theorem setValue_length (m : PinModel) (i v : Nat) :
    (setValue m i v).1.pins.length = m.pins.length := by
  unfold setValue
  cases m.pins[i]? with
  | none => rfl
  | some p => by_cases h : isOutputMode p.mode = true <;> simp [h]

/-- `setReporting` never changes the number of pins. -/
theorem setReporting_length (m : PinModel) (i : Nat) (en : Bool) :
    (setReporting m i en).pins.length = m.pins.length := by
  unfold setReporting
  cases m.pins[i]? with
  | none => rfl
  | some p => simp

/-- Applying one command frame never changes the number of pins. -/
theorem applyFrame_length (m : PinModel) (f : Frame) :
    (applyFrame m f).pins.length = m.pins.length := by
  unfold applyFrame
  split_ifs <;>
    first
      | rfl
      | (split <;> simp [setValue_length, setReporting_length, configure_length])

/-- Applying any list of command frames never changes the number of pins. -/
theorem foldl_applyFrame_length (m : PinModel) (fs : List Frame) :
    (fs.foldl applyFrame m).pins.length = m.pins.length := by
  induction fs generalizing m with
  | nil => rfl
  | cons f fs ih => rw [List.foldl_cons, ih, applyFrame_length]

/-- One engine step never changes the number of pins. -/
theorem stepFirmata_pin_count (e : FirmataState) (input : List Nat) :
    (stepFirmata e input).1.pinModel.pins.length = e.pinModel.pins.length :=
  foldl_applyFrame_length _ _

/-- The length of a scheduler entry list is the number of indices whose read
succeeds. -/
theorem length_filterMap_entries (g : Nat → Option Nat) (l : List Nat) :
    (l.filterMap fun j => (g j).map fun w => (j, w)).length =
      l.countP fun j => (g j).isSome := by
  induction l with
  | nil => rfl
  | cons a l ih =>
    rw [List.filterMap_cons, List.countP_cons]
    cases hga : g a with
    | none => simp [hga, ih]
    | some w => simp [hga, ih]

/-- Two pointwise-exclusive counts over one list sum to at most its
length. -/
theorem countP_disjoint_le (p q : Nat → Bool) (l : List Nat)
    (h : ∀ x, ¬(p x = true ∧ q x = true)) :
    l.countP p + l.countP q ≤ l.length := by
  induction l with
  | nil => simp
  | cons a l ih =>
    rw [List.countP_cons, List.countP_cons]
    by_cases hp : p a = true
    · by_cases hq : q a = true
      · exact absurd ⟨hp, hq⟩ (h a)
      · simp [hp, hq]
        omega
    · by_cases hq : q a = true <;> simp [hp, hq] <;> omega

/-- No pin can qualify for both a digital and an analog report: its single
active mode cannot be both input modes. -/
theorem dig_ana_exclusive (m : PinModel) (i : Nat) :
    ¬((digReadOpt m i).isSome = true ∧ (anaReadOpt m i).isSome = true) := by
  rintro ⟨hd, ha⟩
  unfold digReadOpt at hd
  unfold anaReadOpt at ha
  cases hp : m.pins[i]? <;> rw [hp] at hd ha
  · simp at hd
  · rename_i p
    by_cases hc : (p.reporting && p.mode == PinMode.digitalIn) = true
    · by_cases hc' : (p.reporting && p.mode == PinMode.analogIn) = true
      · have h1 := ((Bool.and_eq_true ..).mp hc).2
        have h2 := ((Bool.and_eq_true ..).mp hc').2
        simp at h1 h2
        rw [h1] at h2
        exact PinMode.noConfusion h2
      · simp [hc'] at ha
    · simp [hc] at hd

/-- A tick has at most one entry per pin of the board. -/
theorem tick_length_le (m : PinModel) : (tick m).length ≤ m.pins.length := by
  have hlen : (tick m).length =
      ((List.range m.pins.length).countP fun j => (digReadOpt m j).isSome) +
      ((List.range m.pins.length).countP fun j => (anaReadOpt m j).isSome) := by
    rw [tick, List.length_append, digitalEntries, analogEntries,
      length_filterMap_entries, length_filterMap_entries]
  rw [hlen]
  have h := countP_disjoint_le (fun j => (digReadOpt m j).isSome)
    (fun j => (anaReadOpt m j).isSome) (List.range m.pins.length)
    (fun x => dig_ana_exclusive m x)
  simpa using h

/-- Feeding a concatenation of byte lists is feeding the first list and then
the second from the resulting state, concatenating the dispatched frames. -/
theorem feedBytes_append (s : ParserState) (xs ys : List Nat) :
    feedBytes s (xs ++ ys) =
      ((feedBytes (feedBytes s xs).1 ys).1,
        (feedBytes s xs).2 ++ (feedBytes (feedBytes s xs).1 ys).2) := by
  induction xs generalizing s with
  | nil => simp [feedBytes]
  | cons b bs ih => simp [feedBytes, ih]

/-- Flattening singleton chunks recovers the byte list. -/
theorem flatten_singletons (l : List Nat) : (l.map fun b => [b]).flatten = l := by
  induction l with
  | nil => rfl
  | cons b l ih => simp [ih]

/-- The parser-state well-formedness invariant: whenever a frame is being
accumulated, the expected length is the one the opcode table declares, and a
fixed-length accumulation is still short of its declared length. -/
def wfParser (s : ParserState) : Prop :=
  ∀ op, s.opcode = some op → opcodeSpec op = some s.expected ∧
    ∀ n, s.expected = some n → s.buf.length < n

theorem wf_initParser : wfParser initParser := by
  intro op h
  simp [initParser] at h

theorem startByte_wf (b : Nat) : wfParser (startByte b).1 := by
  unfold startByte
  cases hsp : opcodeSpec b with
  | none => exact wf_initParser
  | some o =>
    cases o with
    | none =>
      intro op hop
      simp at hop
      subst hop
      exact ⟨hsp, by simp⟩
    | some n =>
      by_cases hn : n = 0
      · simp [hn]
        exact wf_initParser
      · simp [hn]
        intro op hop
        simp at hop
        subst hop
        exact ⟨hsp, fun k hk => by simp at hk ⊢; omega⟩

theorem startByte_complete (b : Nat) (f : Frame) (h : (startByte b).2 = some f) :
    frameComplete f := by
  unfold startByte at h
  cases hsp : opcodeSpec b with
  | none => rw [hsp] at h; simp at h
  | some o =>
    cases o with
    | none => rw [hsp] at h; simp at h
    | some n =>
      rw [hsp] at h
      by_cases hn : n = 0
      · simp [hn] at h
        subst h
        simp [frameComplete, hsp, hn]
      · simp [hn] at h

theorem feed_wf (s : ParserState) (b : Nat) (hs : wfParser s) : wfParser (feed s b).1 := by
  unfold feed
  cases hop : s.opcode with
  | none => exact startByte_wf b
  | some op =>
    obtain ⟨hspec, hlen⟩ := hs op hop
    cases hexp : s.expected with
    | some n =>
      by_cases hb : b < 0x80
      · by_cases hn : n ≤ s.buf.length + 1
        · simp [hb, hn]
          exact wf_initParser
        · simp [hb, hn]
          intro op2 hop2
          simp at hop2
          subst hop2
          rw [hexp] at hspec
          exact ⟨hspec, fun k hk => by simp at hk; subst hk; simp; omega⟩
      · simp [hb]
        exact startByte_wf b
    | none =>
      by_cases hterm : b = terminatorByte
      · simp [hterm]
        exact wf_initParser
      · by_cases hb : b < 0x80
        · simp [hterm, hb]
          intro op2 hop2
          simp at hop2
          subst hop2
          rw [hexp] at hspec
          exact ⟨hspec, by simp⟩
        · simp [hterm, hb]
          exact startByte_wf b

theorem feed_complete (s : ParserState) (b : Nat) (f : Frame) (hs : wfParser s)
    (h : (feed s b).2 = some f) : frameComplete f := by
  unfold feed at h
  cases hop : s.opcode with
  | none => rw [hop] at h; exact startByte_complete b f h
  | some op =>
    rw [hop] at h
    obtain ⟨hspec, hlen⟩ := hs op hop
    cases hexp : s.expected with
    | some n =>
      rw [hexp] at h
      by_cases hb : b < 0x80
      · by_cases hn : n ≤ s.buf.length + 1
        · simp [hb, hn] at h
          subst h
          rw [hexp] at hspec
          have hlt := hlen n hexp
          simp [frameComplete, hspec]
          omega
        · simp [hb, hn] at h
      · simp [hb] at h
        exact startByte_complete b f h
    | none =>
      rw [hexp] at h
      by_cases hterm : b = terminatorByte
      · simp [hterm] at h
        subst h
        rw [hexp] at hspec
        simp [frameComplete, hspec]
      · by_cases hb : b < 0x80
        · simp [hterm, hb] at h
        · simp [hterm, hb] at h
          exact startByte_complete b f h

theorem feedBytes_wf_complete (s : ParserState) (bs : List Nat) (hs : wfParser s) :
    wfParser (feedBytes s bs).1 ∧ ∀ f ∈ (feedBytes s bs).2, frameComplete f := by
  induction bs generalizing s with
  | nil => exact ⟨hs, by simp [feedBytes]⟩
  | cons b bs ih =>
    obtain ⟨ih1, ih2⟩ := ih (feed s b).1 (feed_wf s b hs)
    refine ⟨ih1, fun f hf => ?_⟩
    simp only [feedBytes, List.mem_append] at hf
    cases hf with
    | inl hf =>
      rw [Option.mem_toList] at hf
      exact feed_complete s b f hs hf
    | inr hf => exact ih2 f hf

/-- Membership in a scheduler entry list built from an optional per-index
read over `List.range`. -/
theorem mem_filterMap_entries (g : Nat → Option Nat) (n i v : Nat) :
    (i, v) ∈ (List.range n).filterMap (fun j => (g j).map fun w => (j, w)) ↔
      i < n ∧ g i = some v := by
  simp only [List.mem_filterMap, List.mem_range, Option.map_eq_some', Prod.mk.injEq]
  constructor
  · rintro ⟨a, ha, w, hw, rfl, rfl⟩
    exact ⟨ha, hw⟩
  · rintro ⟨hi, hg⟩
    exact ⟨i, hi, v, hg, rfl, rfl⟩

/-- Entry lists built over `List.range` are strictly ascending in the pin
index. -/
theorem pairwise_fst_lt_entries (g : Nat → Option Nat) (n : Nat) :
    ((List.range n).filterMap fun j => (g j).map fun w => (j, w)).Pairwise
      fun a b => a.1 < b.1 := by
  refine List.Pairwise.filterMap _ ?_ (List.pairwise_lt_range n)
  rintro a a' hlt b hb b' hb'
  rcases hga : g a with _ | w
  · rw [hga] at hb; simp at hb
  · rcases hga' : g a' with _ | w'
    · rw [hga'] at hb'; simp at hb'
    · rw [hga] at hb
      rw [hga'] at hb'
      simp at hb hb'
      rw [← hb, ← hb']
      exact hlt

/-- Counting entries with a given pin index in an entry list built over a
duplicate-free index list: exactly one when the index is listed and its read
succeeds, zero otherwise. -/
theorem countP_filterMap_entries (g : Nat → Option Nat) (l : List Nat) (hl : l.Nodup)
    (i : Nat) :
    ((l.filterMap fun j => (g j).map fun w => (j, w)).countP fun e => e.1 == i) =
      if i ∈ l ∧ (g i).isSome then 1 else 0 := by
  induction l with
  | nil => simp
  | cons a l ih =>
    obtain ⟨hna, hnd⟩ := List.nodup_cons.mp hl
    rw [List.filterMap_cons]
    cases hga : g a with
    | none =>
      simp only [Option.map_none']
      rw [ih hnd]
      by_cases hia : i = a
      · subst hia
        simp [hga]
      · simp [hia]
    | some w =>
      simp only [Option.map_some']
      rw [List.countP_cons, ih hnd]
      by_cases hia : i = a
      · subst hia
        simp [hna, hga]
      · have : (a == i) = false := by simp [Ne.symm hia]
        simp [this, hia]

/-- An entry in a tick corresponds to an existing pin whose reporting flag
is set. -/
theorem tick_mem_reporting (m : PinModel) (i v : Nat) (h : (i, v) ∈ tick m) :
    ∃ p, m.pins[i]? = some p ∧ p.reporting = true := by
  rcases List.mem_append.mp h with h | h
  · rw [digitalEntries, mem_filterMap_entries] at h
    obtain ⟨hi, hg⟩ := h
    unfold digReadOpt at hg
    cases hp : m.pins[i]? with
    | none => rw [hp] at hg; simp at hg
    | some p =>
      rw [hp] at hg
      refine ⟨p, rfl, ?_⟩
      by_cases hc : (p.reporting && p.mode == PinMode.digitalIn) = true
      · exact (Bool.and_eq_true ..).mp hc |>.1
      · simp [hc] at hg
  · rw [analogEntries, mem_filterMap_entries] at h
    obtain ⟨hi, hg⟩ := h
    unfold anaReadOpt at hg
    cases hp : m.pins[i]? with
    | none => rw [hp] at hg; simp at hg
    | some p =>
      rw [hp] at hg
      refine ⟨p, rfl, ?_⟩
      by_cases hc : (p.reporting && p.mode == PinMode.analogIn) = true
      · exact (Bool.and_eq_true ..).mp hc |>.1
      · simp [hc] at hg

/-! ## Claim theorems -/

/-- C1: in the driving loop of main.cpp, the reports of step N+1 are emitted
only after every byte produced by step N has drained: any loop transition
returning control to the point where `stepFirmata()` is invoked requires
`txBufferedSize()` to be zero (and comes from the drain wait). -/
theorem drain_barrier_before_next_step (s s' : LoopState) (h : LoopStep s s')
    (hrun : s'.phase = Phase.running) :
    s.phase = Phase.draining ∧ txBufferedSize s = 0 := by
  cases h <;> simp_all [txBufferedSize]

theorem drain_barrier_before_next_step_witness :
    (⟨Phase.draining, initFirmataState, []⟩ : LoopState).phase = Phase.draining ∧
      txBufferedSize ⟨Phase.draining, initFirmataState, []⟩ = 0 :=
  drain_barrier_before_next_step _ _ (LoopStep.exitWait initFirmataState) rfl

/-- C9: main() never returns once the loop is entered — every reachable loop
state has a successor under the loop's transition relation (the only way to
fail to progress is to keep taking drain-wait transitions). -/
theorem loop_never_exits (s : LoopState) : ∃ s', LoopStep s s' := by
  obtain ⟨ph, eng, tx⟩ := s
  cases ph with
  | running => exact ⟨_, LoopStep.runStep eng tx []⟩
  | draining =>
    cases tx with
    | nil => exact ⟨_, LoopStep.exitWait eng⟩
    | cons b rest => exact ⟨_, LoopStep.drainOne eng b rest⟩

/-- C10: the drain wait is pure observation — every loop transition taken
while in the drain wait leaves the engine state unchanged and only lets the
tx queue drain (the resulting queue is a suffix of the previous one; no byte
is ever written during the wait). -/
theorem drain_wait_pure_observation (s s' : LoopState) (h : LoopStep s s')
    (hd : s.phase = Phase.draining) :
    s'.engine = s.engine ∧ s'.tx.IsSuffix s.tx := by
  cases h with
  | runStep eng tx input => simp at hd
  | drainOne eng b rest => exact ⟨rfl, [b], rfl⟩
  | spinPoll eng tx hne => exact ⟨rfl, List.suffix_refl tx⟩
  | exitWait eng => exact ⟨rfl, List.suffix_refl []⟩

theorem drain_wait_pure_observation_witness :
    (⟨Phase.draining, initFirmataState, []⟩ : LoopState).engine =
      (⟨Phase.draining, initFirmataState, [7]⟩ : LoopState).engine ∧
    (⟨Phase.draining, initFirmataState, []⟩ : LoopState).tx.IsSuffix
      (⟨Phase.draining, initFirmataState, [7]⟩ : LoopState).tx :=
  drain_wait_pure_observation _ _ (LoopStep.drainOne initFirmataState 7 []) rfl

/-- C2: every report frame is 3 bytes and the worst-case step burst over the
board's 16 analog channels plus 3 digital ports is 3 * 19 = 57 bytes: the
initial board has exactly 16 + 3 pins, an engine step never changes the pin
count, and every step on a board of at most 16 + 3 pins emits at most 57
bytes (the scheduler yields at most one entry per pin, each encoded in 3
bytes) — which both configured buffer sizes (249 each, main.cpp lines 33-34)
exceed, so the no-drop policy holds. -/
theorem worst_case_burst_fits_buffers :
    (∀ ch v, (encodeAnalog ch v).length = reportFrameBytes ∧
      (encodeDigital ch v).length = reportFrameBytes) ∧
    reportFrameBytes * (analogChannels + digitalPorts) = 57 ∧
    57 ≤ rxBufferSizeCfg ∧ 57 ≤ txBufferSizeCfg ∧
    initFirmataState.pinModel.pins.length = analogChannels + digitalPorts ∧
    (∀ e input, (stepFirmata e input).1.pinModel.pins.length =
      e.pinModel.pins.length) ∧
    (∀ e input, ((stepFirmata e input).2).length =
      reportFrameBytes * (tick (stepFirmata e input).1.pinModel).length) ∧
    (∀ e input, e.pinModel.pins.length ≤ analogChannels + digitalPorts →
      ((stepFirmata e input).2).length ≤ 57) := by
  refine ⟨fun ch v => ⟨rfl, rfl⟩, rfl, by decide, by decide, rfl,
    fun e input => stepFirmata_pin_count e input,
    fun e input => flatten_encode_length _ _, fun e input h => ?_⟩
  have h1 : ((stepFirmata e input).2).length =
      3 * (tick (stepFirmata e input).1.pinModel).length := flatten_encode_length _ _
  have h2 := tick_length_le (stepFirmata e input).1.pinModel
  have h3 := stepFirmata_pin_count e input
  simp only [analogChannels, digitalPorts] at h
  omega

theorem worst_case_burst_fits_buffers_witness :
    ((stepFirmata initFirmataState []).2).length ≤ 57 :=
  worst_case_burst_fits_buffers.2.2.2.2.2.2.2 initFirmataState [] (by decide)

/-- C6: decoding an encoded report with the reference host-side decoder
yields the original value truncated to the channel's bit width (10 bits for
analog, 8 for a digital port); payload bytes stay below 0x80; the 10-bit
value 1023 is split into two 7-bit payload bytes reassembling to 1023; and
out-of-range values are truncated, never rejected. -/
theorem encode_decode_roundtrip :
    (∀ ch v, decodeFrame (encodeAnalog ch v) = some (v % 1024) ∧
      decodeFrame (encodeDigital ch v) = some (v % 256) ∧
      ((encodeAnalog ch v).tail.all fun b => b < 128) = true ∧
      ((encodeDigital ch v).tail.all fun b => b < 128) = true) ∧
    encodeAnalog 0 1023 = [0xE0, 127, 7] ∧
    decodeFrame (encodeAnalog 0 1023) = some 1023 ∧
    decodeFrame (encodeAnalog 0 5000) = some (5000 % 1024) := by
  refine ⟨fun ch v => ⟨?_, ?_, ?_, ?_⟩, by decide, by decide, by decide⟩ <;>
    simp [encodeAnalog, encodeDigital, decodeFrame] <;> omega

/-- C5: `configure` fails with `OutOfRange` when the pin index is beyond the
board's pin count and with `UnsupportedMode` when the requested mode is not
in the pin's capability set, and every failed `configure` leaves the whole
pin model — in particular the pin's active mode — unchanged. -/
theorem configure_error_contract (m : PinModel) (i : Nat) (md : PinMode) :
    (m.pins.length ≤ i → configure m i md = (m, some ConfigError.OutOfRange)) ∧
    (∀ p, m.pins[i]? = some p → md ∉ p.capabilities →
      configure m i md = (m, some ConfigError.UnsupportedMode)) ∧
    (∀ m' e, configure m i md = (m', some e) → m' = m) := by
  refine ⟨fun hle => ?_, fun p hp hnot => ?_, fun m' e heq => ?_⟩
  · unfold configure
    rw [List.getElem?_eq_none hle]
  · unfold configure
    rw [hp]
    simp [hnot]
  · unfold configure at heq
    cases hp : m.pins[i]? with
    | none => rw [hp] at heq; exact (Prod.mk.injEq .. ▸ heq).1.symm
    | some p =>
      rw [hp] at heq
      by_cases hmem : md ∈ p.capabilities
      · simp [hmem] at heq
      · simp [hmem] at heq
        exact heq.1.symm

theorem configure_error_contract_witness :
    configure ⟨[⟨[PinMode.digitalIn], PinMode.digitalIn, false, 0⟩]⟩ 0 PinMode.pwm =
      (⟨[⟨[PinMode.digitalIn], PinMode.digitalIn, false, 0⟩]⟩,
        some ConfigError.UnsupportedMode) :=
  (configure_error_contract ⟨[⟨[PinMode.digitalIn], PinMode.digitalIn, false, 0⟩]⟩ 0
      PinMode.pwm).2.1
    ⟨[PinMode.digitalIn], PinMode.digitalIn, false, 0⟩ (by decide) (by decide)

/-- C3: fragmentation-invariance — for every byte stream and every partition
of it into chunks, feeding the chunks to the frame parser yields the same
final parser state and the same sequence of dispatched frames as feeding the
flattened stream one byte at a time (in particular, the same as feeding it
as singleton chunks). -/
theorem fragmentation_invariance (s : ParserState) (cs : List (List Nat)) :
    feedChunks s cs = feedBytes s cs.flatten ∧
    feedChunks s (cs.flatten.map fun b => [b]) = feedBytes s cs.flatten := by
  have hmain : ∀ (ds : List (List Nat)) (t : ParserState),
      feedChunks t ds = feedBytes t ds.flatten := by
    intro ds
    induction ds with
    | nil => intro t; simp [feedChunks, feedBytes]
    | cons c ds ih => intro t; simp [feedChunks, List.flatten_cons, feedBytes_append, ih]
  refine ⟨hmain cs s, ?_⟩
  rw [hmain (cs.flatten.map fun b => [b]) s, flatten_singletons]

/-- C4: the frame parser never dispatches a frame whose payload is shorter
than its opcode requires — partial frames are held in parser state.  In
particular, feeding the first two bytes `[0x90, 0x7F]` of a three-byte
fixed-length frame dispatches nothing, and supplying the one remaining byte
later dispatches exactly one complete frame. -/
theorem parser_no_short_dispatch :
    (∀ bs f, f ∈ (feedBytes initParser bs).2 → frameComplete f) ∧
    (feedBytes initParser [0x90, 0x7F]).2 = [] ∧
    (feedBytes (feedBytes initParser [0x90, 0x7F]).1 [0x01]).2 = [⟨0x90, [0x7F, 0x01]⟩] := by
  refine ⟨fun bs f hf => (feedBytes_wf_complete initParser bs wf_initParser).2 f hf, ?_, ?_⟩ <;>
    decide

theorem parser_no_short_dispatch_witness : frameComplete ⟨0x90, [0x7F, 0x01]⟩ :=
  parser_no_short_dispatch.1 [0x90, 0x7F, 0x01] ⟨0x90, [0x7F, 0x01]⟩ (by decide)

/-- A sample pin used to instantiate the scheduler theorems: digital input
capable, in digital-input mode, reporting enabled, last value 5. -/
def samplePin : Pin := ⟨[PinMode.digitalIn, PinMode.analogIn], PinMode.digitalIn, true, 5⟩

/-- A one-pin sample board. -/
def sampleModel : PinModel := ⟨[samplePin]⟩

/-- C7: the sampling scheduler's tick on a fixed pin-model state is
deterministic and ordered — it is exactly the digital entries followed by
the analog entries, each block strictly ascending in pin index, and it
contains exactly one entry for every pin whose reporting flag is set and
whose mode is an input mode (and none for any other pin). -/
theorem tick_deterministic_ordered (m : PinModel) :
    tick m = digitalEntries m ++ analogEntries m ∧
    (digitalEntries m).Pairwise (fun a b => a.1 < b.1) ∧
    (analogEntries m).Pairwise (fun a b => a.1 < b.1) ∧
    ∀ i p, m.pins[i]? = some p →
      ((tick m).countP fun e => e.1 == i) =
        if p.reporting && isInputMode p.mode then 1 else 0 := by
  refine ⟨rfl, pairwise_fst_lt_entries _ _, pairwise_fst_lt_entries _ _, fun i p hp => ?_⟩
  have hi : i < m.pins.length := by
    rcases List.getElem?_eq_some_iff.mp hp with ⟨h, _⟩
    exact h
  have hdig : (digReadOpt m i).isSome = (p.reporting && p.mode == PinMode.digitalIn) := by
    unfold digReadOpt
    rw [hp]
    by_cases hc : (p.reporting && p.mode == PinMode.digitalIn) = true <;> simp [hc]
  have hana : (anaReadOpt m i).isSome = (p.reporting && p.mode == PinMode.analogIn) := by
    unfold anaReadOpt
    rw [hp]
    by_cases hc : (p.reporting && p.mode == PinMode.analogIn) = true <;> simp [hc]
  rw [tick, List.countP_append, digitalEntries, analogEntries,
    countP_filterMap_entries _ _ (List.nodup_range _) i,
    countP_filterMap_entries _ _ (List.nodup_range _) i]
  simp only [List.mem_range, hi, true_and, hdig, hana]
  cases hr : p.reporting <;> cases hm : p.mode <;> simp [isInputMode]

theorem tick_deterministic_ordered_witness :
    ((tick sampleModel).countP fun e => e.1 == 0) = 1 := by
  have h := (tick_deterministic_ordered sampleModel).2.2.2 0 samplePin (by decide)
  simpa [samplePin, isInputMode] using h

/-- C8: an engine step emits report frames exactly for the entries of the
scheduler's tick on the post-parse pin model, and every tick entry belongs
to a pin whose reporting-enabled flag is set at that step — so no report is
ever produced for a channel whose reporting flag is clear. -/
theorem report_only_if_enabled (e : FirmataState) (input : List Nat) (i v : Nat) :
    (stepFirmata e input).2 =
      ((tick (stepFirmata e input).1.pinModel).map
        (encodeEntry (stepFirmata e input).1.pinModel)).flatten ∧
    ((i, v) ∈ tick (stepFirmata e input).1.pinModel →
      ∃ p, (stepFirmata e input).1.pinModel.pins[i]? = some p ∧ p.reporting = true) :=
  ⟨rfl, fun hmem => tick_mem_reporting _ i v hmem⟩

theorem report_only_if_enabled_witness :
    ∃ p, (stepFirmata ⟨initParser, sampleModel⟩ []).1.pinModel.pins[0]? = some p ∧
      p.reporting = true :=
  (report_only_if_enabled ⟨initParser, sampleModel⟩ [] 0 5).2 (by decide)

end Firmata
